import Mathlib

/-!
Verification of the Mercurial ssh transport, batching escapes, and
resumable command-state store, shallowly embedded over lists of
characters (Python 2 byte strings).

Sources embedded:
  * tests/test-batching.py : escapearg / unescapearg
  * mercurial/sshpeer.py   : framing, handshake scanning, doublepipe,
                             pipe cleanup
  * mercurial/state.py     : cmdstate save / read, unfinished registry
-/

namespace Hg

/-! ## Python string primitives (over lists of characters) -/

/-- Boolean prefix test on character lists (as `str.startswith`). -/
def isPre : List Char → List Char → Bool
  | [], _ => true
  | _ :: _, [] => false
  | a :: as, b :: bs => a == b && isPre as bs

/-- One pass of Python `str.replace` with a nonempty pattern `p :: ps`:
scan left to right, replace non-overlapping occurrences by `r`;
replacement text is not rescanned. -/
def replaceAux (p : Char) (ps : List Char) (r : List Char) : List Char → List Char
  | [] => []
  | c :: rest =>
    if c == p && isPre ps rest then
      r ++ replaceAux p ps r (rest.drop ps.length)
    else
      c :: replaceAux p ps r rest
termination_by l => l.length
decreasing_by
  · simp only [List.length_drop, List.length_cons]; omega
  · simp only [List.length_cons]; omega

/-- Python `str.replace pat r` (all patterns used here are nonempty). -/
def pyreplace (pat r s : List Char) : List Char :=
  match pat with
  | [] => s
  | p :: ps => replaceAux p ps r s

/-! ## escapearg / unescapearg (tests/test-batching.py) -/

/-- `escapearg` from the batching demo:
`plain.replace(':','::').replace(',',':,').replace(';',':;').replace('=',':=')`. -/
def escapearg (plain : List Char) : List Char :=
  pyreplace ['='] [':', '=']
    (pyreplace [';'] [':', ';']
      (pyreplace [','] [':', ',']
        (pyreplace [':'] [':', ':'] plain)))

/-- `unescapearg` from the batching demo:
`escaped.replace(':=','=').replace(':;',';').replace(':,',',').replace('::',':')`. -/
def unescapearg (escaped : List Char) : List Char :=
  pyreplace [':', ':'] [':']
    (pyreplace [':', ','] [',']
      (pyreplace [':', ';'] [';']
        (pyreplace [':', '='] ['='] escaped)))

/-- Apply a character-to-string map over a string, concatenating pieces. -/
def escListF (f : Char → List Char) : List Char → List Char
  | [] => []
  | c :: t => f c ++ escListF f t

/-- The per-character expansion realized by `escapearg`. -/
def escChar (c : Char) : List Char :=
  if c = ':' then [':', ':']
  else if c = ',' then [':', ',']
  else if c = ';' then [':', ';']
  else if c = '=' then [':', '=']
  else [c]

/-- Blocks after undoing the `=` escape. -/
def escChar1 (c : Char) : List Char :=
  if c = '=' then ['='] else escChar c

/-- Blocks after undoing the `=` and `;` escapes. -/
def escChar2 (c : Char) : List Char :=
  if c = ';' then [';'] else escChar1 c

/-- Blocks after undoing the `=`, `;` and `,` escapes. -/
def escChar3 (c : Char) : List Char :=
  if c = ',' then [','] else escChar2 c

/-- `P` holds of the head of `l` (vacuously for `[]`): head differs from `x`. -/
def headNe (x : Char) : List Char → Prop
  | [] => True
  | c :: _ => c ≠ x

/-! ## Decimal rendering (`b"%d" % n`) and Python `int()` parsing -/

/-- Little-endian decimal digits of a natural number (`[]` for 0). -/
def natDigitsLE : Nat → List Nat
  | 0 => []
  | n + 1 => (n + 1) % 10 :: natDigitsLE ((n + 1) / 10)
decreasing_by exact Nat.div_lt_self (Nat.succ_pos n) (by norm_num)

/-- The character of a decimal digit value. -/
def digitCh (d : Nat) : Char := Char.ofNat (48 + d)

/-- The digit value of a character. -/
def digitVal (c : Char) : Nat := c.toNat - 48

/-- Is `c` an ASCII decimal digit? -/
def isDigitCh (c : Char) : Bool := decide (48 ≤ c.toNat) && decide (c.toNat ≤ 57)

/-- Decimal rendering of a natural number, as `b"%d"`. -/
def renderNat (n : Nat) : List Char :=
  if n = 0 then ['0'] else ((natDigitsLE n).map digitCh).reverse

/-- Decimal rendering of an integer, as `b"%d"`. -/
def renderInt (i : Int) : List Char :=
  if i < 0 then '-' :: renderNat i.natAbs else renderNat i.natAbs

/-- Value of little-endian digits. -/
def parseDigitsLE : List Nat → Nat
  | [] => 0
  | d :: ds => d + 10 * parseDigitsLE ds

/-- Value of a big-endian digit string. -/
def parseDigitsBE (ds : List Char) : Nat := parseDigitsLE ((ds.map digitVal).reverse)

/-- Parse an optional sign followed by a nonempty run of digits. -/
def strictParseInt (s : List Char) : Option Int :=
  match s with
  | [] => none
  | c :: cs =>
    if c = '-' then
      if cs ≠ [] ∧ cs.all isDigitCh then some (-(parseDigitsBE cs : Int)) else none
    else if c = '+' then
      if cs ≠ [] ∧ cs.all isDigitCh then some (parseDigitsBE cs) else none
    else if (c :: cs).all isDigitCh then some (parseDigitsBE (c :: cs)) else none

/-- The whitespace characters stripped by Python `int()`. -/
def isSpaceCh (c : Char) : Bool :=
  c == ' ' || c == '\t' || c == '\n' || c == '\r' ||
  c == Char.ofNat 11 || c == Char.ofNat 12

/-- Python `str.strip()`. -/
def pystrip (s : List Char) : List Char :=
  ((s.dropWhile isSpaceCh).reverse.dropWhile isSpaceCh).reverse

/-- Python `int(s)`: strip whitespace, then sign and digits. -/
def pyIntParse (s : List Char) : Option Int := strictParseInt (pystrip s)

/-! ## readline over a byte stream -/

/-- `readline()` on a byte stream: up to and including the first newline,
the whole rest at end of stream, the empty string at EOF. -/
def readline : List Char → List Char × List Char
  | [] => ([], [])
  | c :: rest =>
    if c = '\n' then (['\n'], rest)
    else
      let p := readline rest
      (c :: p.1, p.2)

/-! ## Framing (sshpeer.sshv1peer._writeframed / _readframed / _getamount) -/

/-- Errors `_getamount` aborts with. -/
inductive FrameErr
  | outOfBand
  | response
deriving DecidableEq

/-- `_writeframed(data)`: the bytes written to the outgoing pipe — a
decimal length line, then (`if data:`) the payload. -/
def writeframed (data : List Char) : List Char :=
  renderNat data.length ++ ['\n'] ++ (if data = [] then [] else data)

/-- `_getamount()`: read a length line; a blank line aborts with
`OutOfBandError`; unparsable content aborts with `ResponseError`.
Returns the parsed length and the remaining stream. -/
def getamount (input : List Char) : Except FrameErr (Int × List Char) :=
  if (readline input).1 = ['\n'] then .error .outOfBand
  else
    match pyIntParse (readline input).1 with
    | some n => .ok (n, (readline input).2)
    | none => .error .response

/-- `_readframed()`: read a length line then exactly that many payload
bytes; a declared zero length returns empty without a payload read. -/
def readframed (input : List Char) : Except FrameErr (List Char × List Char) :=
  match getamount input with
  | .error e => .error e
  | .ok (n, rest) =>
    if n = 0 then .ok ([], rest)
    else .ok (rest.take n.toNat, rest.drop n.toNat)

/-! ## Resumable state store (mercurial/state.py)

The state file body is produced and consumed by `cborutil.streamencode` /
`cborutil.decodeall`, which are not part of the sources; the spec treats
them as a generic streaming binary codec for structured values, so they
are modelled below as a concrete self-delimiting codec. -/

/-- Structured values handled by the streaming codec. -/
inductive StateValue
  | int (i : Int)
  | bytes (s : List Char)
  | list (xs : List StateValue)
  | map (ps : List (StateValue × StateValue))

mutual
/-- Modelled from the spec: `cborutil.streamencode` (not under src/) is a
"generic streaming binary encoder for structured values"; modelled as a
self-delimiting codec: `i<int>e` for integers, `<len>:<bytes>` for byte
strings, `l...e` for lists and `d...e` for maps. -/
def streamencode : StateValue → List Char
  | .int i => 'i' :: renderInt i ++ ['e']
  | .bytes s => 's' :: renderNat s.length ++ ':' :: s
  | .list xs => 'l' :: encodeSeq xs ++ ['e']
  | .map ps => 'd' :: encodePairs ps ++ ['e']

def encodeSeq : List StateValue → List Char
  | [] => []
  | v :: vs => streamencode v ++ encodeSeq vs

def encodePairs : List (StateValue × StateValue) → List Char
  | [] => []
  | (k, v) :: ps => streamencode k ++ streamencode v ++ encodePairs ps
end

/-- Greedy span of a predicate over a list. -/
def spanP (p : Char → Bool) : List Char → List Char × List Char
  | [] => ([], [])
  | c :: rest =>
    if p c then (c :: (spanP p rest).1, (spanP p rest).2) else ([], c :: rest)

/-- Decode a terminated integer field: digits up to an `e` terminator. -/
def intSpan (s : List Char) : Option (Int × List Char) :=
  match strictParseInt (spanP (fun c => !(c == 'e')) s).1,
        (spanP (fun c => !(c == 'e')) s).2 with
  | some i, _ :: rest2 => some (i, rest2)
  | _, _ => none

/-- Decode a length field: digits up to a `:` separator. -/
def natSpan (s : List Char) : Option (Nat × List Char) :=
  match (spanP isDigitCh s).1, (spanP isDigitCh s).2 with
  | [], _ => none
  | _ :: _, [] => none
  | d :: ds, c :: rest2 =>
    if c = ':' then some (parseDigitsBE (d :: ds), rest2) else none

mutual
/-- Modelled from the spec: the decoding half of the streaming codec,
with explicit fuel (any fuel at least the input length suffices). -/
def decodeOne : Nat → List Char → Option (StateValue × List Char)
  | 0, _ => none
  | _ + 1, [] => none
  | fuel + 1, c :: rest =>
    if c = 'i' then
      match intSpan rest with
      | some (i, rest2) => some (.int i, rest2)
      | none => none
    else if c = 's' then
      match natSpan rest with
      | some (n, rest2) =>
        if n ≤ rest2.length then some (.bytes (rest2.take n), rest2.drop n)
        else none
      | none => none
    else if c = 'l' then
      match decodeSeq fuel rest with
      | some (vs, rest2) => some (.list vs, rest2)
      | none => none
    else if c = 'd' then
      match decodePairs fuel rest with
      | some (ps, rest2) => some (.map ps, rest2)
      | none => none
    else none
termination_by structural fuel _ => fuel

def decodeSeq : Nat → List Char → Option (List StateValue × List Char)
  | 0, _ => none
  | _ + 1, [] => none
  | fuel + 1, c :: rest =>
    if c = 'e' then some ([], rest)
    else
      match decodeOne fuel (c :: rest) with
      | some (v, rest2) =>
        match decodeSeq fuel rest2 with
        | some (vs, rest3) => some (v :: vs, rest3)
        | none => none
      | none => none
termination_by structural fuel _ => fuel

def decodePairs : Nat → List Char → Option (List (StateValue × StateValue) × List Char)
  | 0, _ => none
  | _ + 1, [] => none
  | fuel + 1, c :: rest =>
    if c = 'e' then some ([], rest)
    else
      match decodeOne fuel (c :: rest) with
      | some (k, rest2) =>
        match decodeOne fuel rest2 with
        | some (v, rest3) =>
          match decodePairs fuel rest3 with
          | some (ps, rest4) => some ((k, v) :: ps, rest4)
          | none => none
        | none => none
      | none => none
termination_by structural fuel _ => fuel
end

mutual
/-- Fuel weight of one value: any fuel of at least this weight decodes it. -/
def wOne : StateValue → Nat
  | .int _ => 1
  | .bytes _ => 1
  | .list xs => 1 + wSeq xs
  | .map ps => 1 + wPairs ps

def wSeq : List StateValue → Nat
  | [] => 1
  | v :: vs => 1 + max (wOne v) (wSeq vs)

def wPairs : List (StateValue × StateValue) → Nat
  | [] => 1
  | (k, v) :: ps => 1 + max (wOne k) (max (wOne v) (wPairs ps))
end

/-- Total fuel weight of a top-level sequence of values. -/
def wAll : List StateValue → Nat
  | [] => 0
  | v :: vs => max (wOne v) (1 + wAll vs)

/-- The loop of the modelled `cborutil.decodeall`: decode values until the
input is exhausted. -/
def decodeallAux : Nat → List Char → Option (List StateValue)
  | _, [] => some []
  | 0, _ :: _ => none
  | fuel + 1, c :: rest =>
    match decodeOne (fuel + 1) (c :: rest) with
    | some (v, rest2) =>
      match decodeallAux fuel rest2 with
      | some vs => some (v :: vs)
      | none => none
    | none => none
termination_by structural fuel _ => fuel

/-- Modelled from the spec: `cborutil.decodeall` (not under src/) decodes
the list of all top-level structured values in the byte string, failing
(raising, modelled as `none`) on malformed input. -/
def decodeall (input : List Char) : Option (List StateValue) :=
  decodeallAux input.length input

/-- Failures surfaced by `cmdstate._read`: `CorruptedState` for a bad
version line; a decoder error or an out-of-range indexing error
otherwise propagate as themselves. -/
inductive ReadErr
  | corruptedState
  | indexError
  | decodeError
deriving DecidableEq

/-- `cmdstate.save` file contents: `fp.write('%d\n' % version)` followed
by the chunks of `cborutil.streamencode(data)`. -/
def savecontent (version : Int) (data : StateValue) : List Char :=
  renderInt version ++ '\n' :: streamencode data

/-- `cmdstate._read`: `int(fp.readline())` inside a try that turns
`ValueError` into `CorruptedState`, then `cborutil.decodeall(fp.read())[0]`
outside the try — so a decode failure propagates the decoder's own error,
an empty decode result is an IndexError, and any values after the first
are silently dropped. -/
def cmdread (content : List Char) : Except ReadErr StateValue :=
  match pyIntParse (readline content).1 with
  | none => .error .corruptedState
  | some _ =>
    match decodeall (readline content).2 with
    | none => .error .decodeError
    | some [] => .error .indexError
    | some (v :: _) => .ok v

/-- Python values a caller might pass as the `version` argument. -/
inductive PyVersion
  | pint (i : Int)
  | pbytes (s : List Char)
  | pnone
deriving DecidableEq

/-- `isinstance(version, int)`. -/
def PyVersion.isInt : PyVersion → Bool
  | .pint _ => true
  | .pbytes _ => false
  | .pnone => false

/-- The failure `cmdstate.save` raises on a non-integer version. -/
inductive SaveErr
  | programmingError
deriving DecidableEq

/-- `cmdstate.save`: the `isinstance(version, int)` check precedes opening
the file; on failure ProgrammingError is raised with the state file left
untouched, otherwise the record is written (atomically) over the old
contents. Takes the previous file contents, returns the error raised (if
any) and the resulting file contents. -/
def cmdsave (version : PyVersion) (data : StateValue) (file : Option (List Char)) :
    Option SaveErr × Option (List Char) :=
  match version with
  | .pint i => (none, some (savecontent i data))
  | .pbytes _ => (some .programmingError, file)
  | .pnone => (some .programmingError, file)

/-! ## Unfinished-operation registry (mercurial/state.py) -/

/-- `_statecheck`: static descriptor of one multistep operation kind
(the `abortfunc`/`continuefunc` callbacks carry no data relevant here
and are omitted). -/
structure StateCheck where
  opname : String
  fname : String
  clearable : Bool
  allowcommit : Bool
  reportonly : Bool
  continueflag : Bool
  stopflag : Bool
  cmdmsg : String
  cmdhint : String
  statushint : String
deriving DecidableEq

/-- The repository facts `state.py` consults: the number of working-copy
parents, the files existing under `.hg`, and the configured
`commands.status.skipstates` list. -/
structure Repo where
  parents : Nat
  files : List String
  skipstates : List String
deriving DecidableEq

/-- `_statecheck.statusmsg`. -/
def StateCheck.statusmsg (s : StateCheck) : String :=
  if s.statushint = "" then
    let hint := "To continue:    hg " ++ s.opname ++ " --continue\n" ++
      "To abort:       hg " ++ s.opname ++ " --abort"
    if s.stopflag then
      hint ++ "\nTo stop:        hg " ++ s.opname ++ " --stop"
    else hint
  else s.statushint

/-- `_statecheck.isunfinished`: merge is detected from a multi-parent
working copy, every other kind from its state file existing. -/
def StateCheck.isunfinished (s : StateCheck) (repo : Repo) : Bool :=
  if s.opname = "merge" then decide (1 < repo.parents)
  else repo.files.contains s.fname

/-- `addunfinished` acting on a registry: `merge` is appended at the end,
every other descriptor is inserted at the front. -/
def addunfinished (reg : List StateCheck) (s : StateCheck) : List StateCheck :=
  if s.opname = "merge" then reg ++ [s] else s :: reg

/-- The registry produced by a chronological sequence of
`addunfinished` registrations starting from the empty module list. -/
def buildRegistry (regs : List StateCheck) : List StateCheck :=
  regs.foldl addunfinished []

/-- The loop of `getrepostate`: first registry entry that is not in the
skip set and is unfinished. -/
def getrepostateAux : List StateCheck → Repo → Option (String × String)
  | [], _ => none
  | s :: rest, repo =>
    if repo.skipstates.contains s.opname then getrepostateAux rest repo
    else if s.isunfinished repo then some (s.opname, s.statusmsg)
    else getrepostateAux rest repo

/-- `getrepostate` over a registry built from the registrations `regs`. -/
def getrepostate (repo : Repo) (regs : List StateCheck) : Option (String × String) :=
  getrepostateAux (buildRegistry regs) repo

/-- Spec-side description of the winner: scanning the non-merge
registrations most-recent-first, the first descriptor that is not
skipped and whose slot file exists. -/
def latestNonmergePending (regs : List StateCheck) (repo : Repo) : Option StateCheck :=
  ((regs.filter fun s => !(s.opname == "merge")).reverse).find?
    fun s => !(repo.skipstates.contains s.opname) && repo.files.contains s.fname

/-- A non-merge descriptor used to instantiate C5. -/
def graftDesc : StateCheck :=
  ⟨"graft", "graftstate", false, false, false, true, true, "", "", ""⟩

/-- A second non-merge descriptor, registered after `graftDesc`. -/
def rebaseDesc : StateCheck :=
  ⟨"rebase", "rebasestate", false, false, false, true, true, "", "", ""⟩

/-! ## Handshake response scanning (sshpeer._performhandshake) -/

/-- The `(.*)$` tail of the upgrade pattern: the group may not contain a
newline, and `$` also matches just before one trailing newline. -/
def matchGroupEnd (rest : List Char) : Option (List Char) :=
  if rest.contains '\n' then
    if rest.getLast? = some '\n' ∧ ¬rest.dropLast.contains '\n' then
      some rest.dropLast
    else none
  else some rest

/-- The anchored pattern `^upgraded <token> (.*)$` of the upgrade reply:
an exact literal prefix (the token is `re.escape`d), then the group.
Returns the group. -/
def matchUpgraded (token l : List Char) : Option (List Char) :=
  if isPre ("upgraded ".toList ++ token ++ [' ']) l then
    matchGroupEnd (l.drop ("upgraded ".toList ++ token ++ [' ']).length)
  else none

/-- Outcome of the response-scanning loop of `_performhandshake`. -/
inductive ScanResult
  | upgraded (proto : List Char) (lines : List (List Char)) (stdoutRest : List Char)
  | legacy (lines : List (List Char)) (stdoutRest : List Char)
  | noResponse

/-- The scanning loop: `while lines[-1] and max_noise`, reading one line
per iteration; an upgrade reply stops with the advertised version and
the legacy responses unprocessed; a blank line after an exact `1\n` line
stops normally; running out of noise budget, or a previously appended
empty (end-of-stream) line, falls through to `badresponse`. -/
def scanLoop (token : List Char) : Nat → List Char → List (List Char) → ScanResult
  | 0, _, _ => .noResponse
  | noise + 1, stdout, lines =>
    if lines.getLast? = some [] then .noResponse
    else
      match matchUpgraded token (readline stdout).1 with
      | some proto => .upgraded proto lines (readline stdout).2
      | none =>
        if lines.getLast? = some ['1', '\n'] ∧ (readline stdout).1 = ['\n'] then
          .legacy lines (readline stdout).2
        else
          scanLoop token noise (readline stdout).2 (lines ++ [(readline stdout).1])

/-- The initial `lines = ['', 'dummy']` accumulator. -/
def initLines : List (List Char) := [[], "dummy".toList]

/-- The scanning phase of `_performhandshake`: noise budget 500. -/
def handshakeScan (token stdout : List Char) : ScanResult :=
  scanLoop token 500 stdout initLines

/-- A byte string `readline` would yield as one complete line: nonempty,
ending in the only newline it contains. -/
def lineOk (l : List Char) : Bool :=
  l.getLast? == some '\n' && l.dropLast.all (fun c => !(c == '\n'))

/-- No line of the list terminates the scan: none matches the upgrade
reply, and no line is blank right after an exact `1\n` line (`prev` is
the line preceding the list). -/
def noTerm (token : List Char) : List Char → List (List Char) → Bool
  | _, [] => true
  | prev, l :: ls =>
    (matchUpgraded token l).isNone &&
      !(prev == ['1', '\n'] && l == ['\n']) && noTerm token l ls

/-- Concatenation of a list of lines into a byte stream. -/
def linesJoin : List (List Char) → List Char
  | [] => []
  | l :: ls => l ++ linesJoin ls

/-! ## Capabilities extraction and handshake completion -/

/-- One step of Python `str.split()` word extraction. -/
def pywordsAux : Nat → List Char → List (List Char)
  | 0, _ => []
  | fuel + 1, l =>
    match l.dropWhile isSpaceCh with
    | [] => []
    | c :: r =>
      (c :: (spanP (fun x => !(isSpaceCh x)) r).1) ::
        pywordsAux fuel (spanP (fun x => !(isSpaceCh x)) r).2

/-- Python `str.split()` with no arguments: whitespace-delimited words,
empties dropped. -/
def pywords (l : List Char) : List (List Char) := pywordsAux l.length l

/-- The legacy capability extraction: scan the collected lines from the
back for the first starting with `capabilities:`, then
`l[:-1].split(':')[1].split()`. -/
def capsFromLines (lines : List (List Char)) : List (List Char) :=
  match lines.reverse.find? (fun l => isPre "capabilities:".toList l) with
  | some l => pywords ((l.dropLast.splitOn ':').getD 1 [])
  | none => []

/-- Modelled from the spec: the protocol version name `wireprototypes.SSHV1`
(module not under src/), one of the closed version enumeration. -/
def SSHV1 : List Char := "ssh-v1".toList

/-- Modelled from the spec: the protocol version name `wireprotoserver.SSHV2`
(module not under src/), the upgraded member of the version enumeration. -/
def SSHV2 : List Char := "exp-ssh-v2-0001".toList

/-- Result of the whole handshake: negotiated version and capability
tokens plus the unconsumed stream, or the no-suitable-response failure. -/
inductive HandshakeOutcome
  | ok (protoname : List Char) (caps : List (List Char)) (stdoutRest : List Char)
  | noResponse

/-- The SSHV2 capability read: a decimal count line, that many bytes
which must start with `capabilities: `, parsed like the legacy line
(without the final-character strip), then one trailing newline byte. -/
def sshv2Finish (stream : List Char) : HandshakeOutcome :=
  match pyIntParse (readline stream).1 with
  | none => .noResponse
  | some n =>
    if isPre "capabilities: ".toList ((readline stream).2.take n.toNat) then
      if pywords ((((readline stream).2.take n.toNat).splitOn ':').getD 1 []) = [] then
        .noResponse
      else
        .ok SSHV2 (pywords ((((readline stream).2.take n.toNat).splitOn ':').getD 1 []))
          ((readline stream).2.drop (n.toNat + 1))
    else .noResponse

/-- Capability acquisition after the scan: the legacy reverse scan for
SSHV1, the counted blob for SSHV2, nothing for an unknown name; an empty
capability set is the `badresponse` failure. -/
def finishHandshake (protoname : List Char) (lines : List (List Char))
    (stream : List Char) : HandshakeOutcome :=
  if protoname = SSHV1 then
    if capsFromLines lines = [] then .noResponse
    else .ok SSHV1 (capsFromLines lines) stream
  else if protoname = SSHV2 then sshv2Finish stream
  else .noResponse

/-- `_performhandshake`: scan the response, then extract capabilities. -/
def performHandshake (token stdout : List Char) : HandshakeOutcome :=
  match handshakeScan token stdout with
  | .noResponse => .noResponse
  | .legacy lines rest => finishHandshake SSHV1 lines rest
  | .upgraded proto lines rest => finishHandshake proto lines rest

/-! ## Pipe cleanup (sshpeer._cleanuppipes) and peer teardown -/

/-- Observable state of the three SSH pipes: closed flags, unread stderr
bytes, and the diagnostic lines forwarded to the ui. -/
structure PipeState where
  oClosed : Bool
  iClosed : Bool
  eClosed : Bool
  ePending : List Char
  forwarded : List (List Char)
deriving DecidableEq

/-- Lines yielded by iterating a pipe to EOF (trailing newlines kept,
as file iteration yields them). -/
def pipeLinesAux : Nat → List Char → List (List Char)
  | 0, _ => []
  | _ + 1, [] => []
  | fuel + 1, c :: r => (readline (c :: r)).1 :: pipeLinesAux fuel (readline (c :: r)).2

/-- All lines of a byte stream. -/
def pipeLines (s : List Char) : List (List Char) := pipeLinesAux s.length s

/-- `_cleanuppipes`: close pipeo and pipei, then iterate pipee to EOF
forwarding each line (a ValueError from an already-closed pipee is
swallowed), and close pipee. -/
def cleanuppipes (s : PipeState) : PipeState :=
  { oClosed := true, iClosed := true, eClosed := true,
    ePending := if s.eClosed then s.ePending else [],
    forwarded := s.forwarded ++ if s.eClosed then [] else pipeLines s.ePending }

/-- `sshv1peer.close`: its body is `pass`. -/
def peerclose (s : PipeState) : PipeState := s

/-- `sshv1peer._cleanup`, also installed as `__del__`. -/
def peercleanup (s : PipeState) : PipeState := cleanuppipes s

/-- `makepeer`: perform the handshake, cleaning up all three pipes when
it raises; an unknown negotiated version also cleans up and raises. -/
def makepeer (token stdout : List Char) (p : PipeState) :
    Option (List Char × List (List Char)) × PipeState :=
  match performHandshake token stdout with
  | .noResponse => (none, cleanuppipes p)
  | .ok proto caps _ =>
    if proto = SSHV1 then (some (proto, caps), p)
    else if proto = SSHV2 then (some (proto, caps), p)
    else (none, cleanuppipes p)

/-! ## doublepipe (sshpeer.doublepipe) -/

/-- The argument `_call` receives: `write` data, a `read` size, or no
data for `readline`. -/
inductive CallArg
  | writeData (d : List Char)
  | readSize (n : Nat)
  | readlineArg
deriving DecidableEq

/-- `data is not None and not data`. -/
def argFalsy : CallArg → Bool
  | .writeData d => d.isEmpty
  | .readSize n => n == 0
  | .readlineArg => false

/-- The primary stream: its buffered bytes, closed flag, and the log of
method invocations actually performed on it. -/
structure MainPipe where
  buf : List Char
  closed : Bool
  log : List CallArg
deriving DecidableEq

/-- A doublepipe: primary stream, side-channel bytes, diagnostic sink. -/
structure DoublePipe where
  main : MainPipe
  side : List Char
  sink : List (List Char)
deriving DecidableEq

/-- Python `str.splitlines()` (terminators stripped), one step. -/
def splitlinesAux : Nat → List Char → List (List Char)
  | 0, _ => []
  | _ + 1, [] => []
  | fuel + 1, c :: r =>
    (spanP (fun x => !(x == '\n')) (c :: r)).1 ::
      splitlinesAux fuel ((spanP (fun x => !(x == '\n')) (c :: r)).2.drop 1)

/-- Python `str.splitlines()`. -/
def pysplitlines (l : List Char) : List (List Char) := splitlinesAux l.length l

/-- `_forwardoutput(ui, pipe)`: non-blocking drain of all currently
available side bytes; if any, forward them linewise to the sink. -/
def forwardoutput (s : DoublePipe) : DoublePipe :=
  { s with side := [],
           sink := s.sink ++ if s.side = [] then [] else pysplitlines s.side }

/-- Perform the requested method on the primary stream (logged). -/
def performMain (arg : CallArg) (s : DoublePipe) : List Char × DoublePipe :=
  match arg with
  | .writeData d =>
    ([], ⟨⟨s.main.buf ++ d, s.main.closed, s.main.log ++ [arg]⟩, s.side, s.sink⟩)
  | .readSize n =>
    (s.main.buf.take n,
      ⟨⟨s.main.buf.drop n, s.main.closed, s.main.log ++ [arg]⟩, s.side, s.sink⟩)
  | .readlineArg =>
    ((readline s.main.buf).1,
      ⟨⟨(readline s.main.buf).2, s.main.closed, s.main.log ++ [arg]⟩, s.side, s.sink⟩)

/-- `doublepipe._call`: empty data, zero size, or a closed primary
short-circuits to a side-channel forward returning the empty string;
otherwise the wait loop forwards any ready side output and performs the
primary operation (in this sequential model the primary is ready). -/
def dpcall (arg : CallArg) (s : DoublePipe) : List Char × DoublePipe :=
  if argFalsy arg || s.main.closed then ([], forwardoutput s)
  else performMain arg (forwardoutput s)

/-- `doublepipe.write`. -/
def dpwrite (d : List Char) (s : DoublePipe) : List Char × DoublePipe :=
  dpcall (.writeData d) s

/-- `doublepipe.read`: after `_call`, an empty result for a nonzero size
triggers one more stderr forward before returning. -/
def dpread (n : Nat) (s : DoublePipe) : List Char × DoublePipe :=
  if n ≠ 0 ∧ (dpcall (.readSize n) s).1 = [] then
    ((dpcall (.readSize n) s).1, forwardoutput (dpcall (.readSize n) s).2)
  else dpcall (.readSize n) s

/-- `doublepipe.readline`. -/
def dpreadline (s : DoublePipe) : List Char × DoublePipe :=
  dpcall .readlineArg s

/-! ## Theorems -/

theorem pyreplace_cons (p : Char) (ps r s : List Char) :
    pyreplace (p :: ps) r s = replaceAux p ps r s := rfl

theorem replace_single (p : Char) (r : List Char) :
    ∀ s, replaceAux p [] r s = escListF (fun c => if c = p then r else [c]) s := by
  intro s
  induction s with
  | nil => simp [replaceAux, escListF]
  | cons c t ih =>
    by_cases h : c = p
    · subst h
      simp [replaceAux, isPre, escListF, ih]
    · simp [replaceAux, isPre, escListF, ih, h]

theorem escListF_append (f : Char → List Char) :
    ∀ s t, escListF f (s ++ t) = escListF f s ++ escListF f t := by
  intro s t
  induction s with
  | nil => rfl
  | cons c u ih => simp [escListF, ih]

theorem escListF_comp (f g : Char → List Char) :
    ∀ s, escListF g (escListF f s) = escListF (fun c => escListF g (f c)) s := by
  intro s
  induction s with
  | nil => rfl
  | cons c t ih => simp [escListF, escListF_append, ih]

theorem escapearg_eq (s : List Char) : escapearg s = escListF escChar s := by
  unfold escapearg
  rw [pyreplace_cons, pyreplace_cons, pyreplace_cons, pyreplace_cons]
  rw [replace_single, replace_single, replace_single, replace_single]
  rw [escListF_comp, escListF_comp, escListF_comp]
  congr 1
  funext c
  by_cases h1 : c = ':'
  · subst h1; rfl
  · by_cases h2 : c = ','
    · subst h2; rfl
    · by_cases h3 : c = ';'
      · subst h3; rfl
      · by_cases h4 : c = '='
        · subst h4; rfl
        · simp [escListF, escChar, h1, h2, h3, h4]

theorem isPre_single_false (x : Char) (l : List Char) (h : headNe x l) :
    isPre [x] l = false := by
  cases l with
  | nil => rfl
  | cons c t =>
    simp only [headNe] at h
    simp [isPre, Ne.symm h]

theorem escChar_headNe (s : List Char) : headNe '=' (escListF escChar s) := by
  cases s with
  | nil => trivial
  | cons c t =>
    by_cases h1 : c = ':'
    · subst h1; simp [escListF, escChar, headNe]
    · by_cases h2 : c = ','
      · subst h2; simp [escListF, escChar, headNe]
      · by_cases h3 : c = ';'
        · subst h3; simp [escListF, escChar, headNe]
        · by_cases h4 : c = '='
          · subst h4; simp [escListF, escChar, headNe]
          · simp [escListF, escChar, headNe, h1, h2, h3, h4]

theorem escChar1_headNe (s : List Char) : headNe ';' (escListF escChar1 s) := by
  cases s with
  | nil => trivial
  | cons c t =>
    by_cases h4 : c = '='
    · subst h4; simp [escListF, escChar1, headNe]
    · by_cases h1 : c = ':'
      · subst h1; simp [escListF, escChar1, escChar, headNe]
      · by_cases h2 : c = ','
        · subst h2; simp [escListF, escChar1, escChar, headNe]
        · by_cases h3 : c = ';'
          · subst h3; simp [escListF, escChar1, escChar, headNe]
          · simp [escListF, escChar1, escChar, headNe, h1, h2, h3, h4]

theorem escChar2_headNe (s : List Char) : headNe ',' (escListF escChar2 s) := by
  cases s with
  | nil => trivial
  | cons c t =>
    by_cases h3 : c = ';'
    · subst h3; simp [escListF, escChar2, headNe]
    · by_cases h4 : c = '='
      · subst h4; simp [escListF, escChar2, escChar1, headNe]
      · by_cases h1 : c = ':'
        · subst h1; simp [escListF, escChar2, escChar1, escChar, headNe]
        · by_cases h2 : c = ','
          · subst h2; simp [escListF, escChar2, escChar1, escChar, headNe]
          · simp [escListF, escChar2, escChar1, escChar, headNe, h1, h2, h3, h4]

theorem unescape_stage1 :
    ∀ s, replaceAux ':' ['='] ['='] (escListF escChar s) = escListF escChar1 s := by
  intro s
  induction s with
  | nil => simp [replaceAux, escListF]
  | cons c t ih =>
    by_cases h1 : c = ':'
    · subst h1
      have hne := escChar_headNe t
      simp [escListF, escChar, escChar1, replaceAux, isPre,
            isPre_single_false _ _ hne, ih]
    · by_cases h2 : c = ','
      · subst h2; simp [escListF, escChar, escChar1, replaceAux, isPre, ih]
      · by_cases h3 : c = ';'
        · subst h3; simp [escListF, escChar, escChar1, replaceAux, isPre, ih]
        · by_cases h4 : c = '='
          · subst h4; simp [escListF, escChar, escChar1, replaceAux, isPre, ih]
          · simp [escListF, escChar, escChar1, replaceAux, isPre, ih, h1, h2, h3, h4]

theorem unescape_stage2 :
    ∀ s, replaceAux ':' [';'] [';'] (escListF escChar1 s) = escListF escChar2 s := by
  intro s
  induction s with
  | nil => simp [replaceAux, escListF]
  | cons c t ih =>
    by_cases h4 : c = '='
    · subst h4; simp [escListF, escChar1, escChar2, replaceAux, isPre, ih]
    · by_cases h1 : c = ':'
      · subst h1
        have hne := escChar1_headNe t
        simp [escListF, escChar, escChar1, escChar2, replaceAux, isPre,
              isPre_single_false _ _ hne, ih]
      · by_cases h2 : c = ','
        · subst h2
          simp [escListF, escChar, escChar1, escChar2, replaceAux, isPre, ih]
        · by_cases h3 : c = ';'
          · subst h3
            simp [escListF, escChar, escChar1, escChar2, replaceAux, isPre, ih]
          · simp [escListF, escChar, escChar1, escChar2, replaceAux, isPre, ih,
                  h1, h2, h3, h4]

theorem unescape_stage3 :
    ∀ s, replaceAux ':' [','] [','] (escListF escChar2 s) = escListF escChar3 s := by
  intro s
  induction s with
  | nil => simp [replaceAux, escListF]
  | cons c t ih =>
    by_cases h3 : c = ';'
    · subst h3; simp [escListF, escChar2, escChar3, replaceAux, isPre, ih]
    · by_cases h4 : c = '='
      · subst h4
        simp [escListF, escChar1, escChar2, escChar3, replaceAux, isPre, ih]
      · by_cases h1 : c = ':'
        · subst h1
          have hne := escChar2_headNe t
          simp [escListF, escChar, escChar1, escChar2, escChar3, replaceAux, isPre,
                isPre_single_false _ _ hne, ih]
        · by_cases h2 : c = ','
          · subst h2
            simp [escListF, escChar, escChar1, escChar2, escChar3, replaceAux,
                  isPre, ih]
          · simp [escListF, escChar, escChar1, escChar2, escChar3, replaceAux,
                  isPre, ih, h1, h2, h3, h4]

theorem unescape_stage4 :
    ∀ s, replaceAux ':' [':'] [':'] (escListF escChar3 s) = s := by
  intro s
  induction s with
  | nil => simp [replaceAux, escListF]
  | cons c t ih =>
    by_cases h2 : c = ','
    · subst h2; simp [escListF, escChar3, replaceAux, isPre, ih]
    · by_cases h3 : c = ';'
      · subst h3; simp [escListF, escChar2, escChar3, replaceAux, isPre, ih]
      · by_cases h4 : c = '='
        · subst h4
          simp [escListF, escChar1, escChar2, escChar3, replaceAux, isPre, ih]
        · by_cases h1 : c = ':'
          · subst h1
            simp [escListF, escChar, escChar1, escChar2, escChar3, replaceAux,
                  isPre, ih]
          · simp [escListF, escChar, escChar1, escChar2, escChar3, replaceAux,
                  isPre, ih, h1, h2, h3, h4]

/-- C1: the 4-symbol escaping of batch argument values composed with
unescaping is the identity on every byte string. -/
theorem unescapearg_escapearg (x : List Char) : unescapearg (escapearg x) = x := by
  rw [escapearg_eq]
  unfold unescapearg
  rw [pyreplace_cons, pyreplace_cons, pyreplace_cons, pyreplace_cons]
  rw [unescape_stage1, unescape_stage2, unescape_stage3, unescape_stage4]

theorem natDigitsLE_lt10 : ∀ n, ∀ d ∈ natDigitsLE n, d < 10 := by
  intro n
  induction n using Nat.strong_induction_on with
  | _ n ih =>
    match n with
    | 0 => simp [natDigitsLE]
    | m + 1 =>
      intro d hd
      rw [natDigitsLE] at hd
      rcases List.mem_cons.1 hd with h | h
      · subst h; exact Nat.mod_lt _ (by norm_num)
      · exact ih ((m + 1) / 10) (Nat.div_lt_self (Nat.succ_pos m) (by norm_num)) d h

theorem parseDigitsLE_natDigitsLE : ∀ n, parseDigitsLE (natDigitsLE n) = n := by
  intro n
  induction n using Nat.strong_induction_on with
  | _ n ih =>
    match n with
    | 0 => simp [natDigitsLE, parseDigitsLE]
    | m + 1 =>
      rw [natDigitsLE, parseDigitsLE,
          ih ((m + 1) / 10) (Nat.div_lt_self (Nat.succ_pos m) (by norm_num))]
      exact Nat.mod_add_div (m + 1) 10

theorem digitVal_digitCh : ∀ d, d < 10 → digitVal (digitCh d) = d := by decide

theorem isDigitCh_digitCh : ∀ d, d < 10 → isDigitCh (digitCh d) = true := by decide

theorem isSpaceCh_digitCh : ∀ d, d < 10 → isSpaceCh (digitCh d) = false := by decide

theorem mapDigits_id :
    ∀ l : List Nat, (∀ d ∈ l, d < 10) → l.map (fun d => digitVal (digitCh d)) = l := by
  intro l h
  induction l with
  | nil => rfl
  | cons d ds ih =>
    simp only [List.map_cons]
    rw [digitVal_digitCh d (h d (List.mem_cons_self d ds)),
        ih (fun x hx => h x (List.mem_cons_of_mem d hx))]

theorem parseDigitsBE_renderNat (n : Nat) : parseDigitsBE (renderNat n) = n := by
  by_cases h : n = 0
  · subst h; decide
  · rw [renderNat, if_neg h, parseDigitsBE]
    rw [List.map_reverse, List.reverse_reverse, List.map_map]
    have : (natDigitsLE n).map (digitVal ∘ digitCh) = natDigitsLE n := by
      have := mapDigits_id (natDigitsLE n) (natDigitsLE_lt10 n)
      simpa [Function.comp] using this
    rw [this, parseDigitsLE_natDigitsLE]

theorem renderNat_ne_nil (n : Nat) : renderNat n ≠ [] := by
  by_cases h : n = 0
  · subst h; simp [renderNat]
  · rw [renderNat, if_neg h]
    match m : n with
    | 0 => exact absurd rfl h
    | k + 1 =>
      rw [natDigitsLE]
      simp

theorem renderNat_all_digits (n : Nat) : ∀ c ∈ renderNat n, isDigitCh c = true := by
  by_cases h : n = 0
  · subst h; intro c hc; simp [renderNat] at hc; subst hc; decide
  · rw [renderNat, if_neg h]
    intro c hc
    rw [List.mem_reverse] at hc
    rcases List.mem_map.1 hc with ⟨d, hd, rfl⟩
    exact isDigitCh_digitCh d (natDigitsLE_lt10 n d hd)

theorem strictParseInt_renderNat (n : Nat) :
    strictParseInt (renderNat n) = some (n : Int) := by
  rcases hs : renderNat n with _ | ⟨c, cs⟩
  · exact absurd hs (renderNat_ne_nil n)
  · have hdig : isDigitCh c = true := by
      have := renderNat_all_digits n c
      rw [hs] at this
      exact this (List.mem_cons_self c cs)
    have hc1 : c ≠ '-' := by
      intro h
      subst h
      simp [isDigitCh] at hdig
    have hc2 : c ≠ '+' := by
      intro h
      subst h
      simp [isDigitCh] at hdig
    have hall : (c :: cs).all isDigitCh = true := by
      rw [← hs]
      rw [List.all_eq_true]
      exact renderNat_all_digits n
    rw [strictParseInt, if_neg hc1, if_neg hc2, if_pos hall, ← hs,
        parseDigitsBE_renderNat]

theorem strictParseInt_renderInt (i : Int) :
    strictParseInt (renderInt i) = some i := by
  by_cases h : i < 0
  · rw [renderInt, if_pos h, strictParseInt, if_pos rfl]
    have hne : renderNat i.natAbs ≠ [] := renderNat_ne_nil _
    have hall : (renderNat i.natAbs).all isDigitCh = true := by
      rw [List.all_eq_true]; exact renderNat_all_digits _
    rw [if_pos ⟨hne, hall⟩, parseDigitsBE_renderNat]
    congr 1
    omega
  · rw [renderInt, if_neg h]
    rw [strictParseInt_renderNat]
    congr 1
    omega

theorem renderInt_nonspace (i : Int) : ∀ c ∈ renderInt i, isSpaceCh c = false := by
  intro c hc
  have hd : isDigitCh c = true ∨ c = '-' := by
    by_cases h : i < 0
    · rw [renderInt, if_pos h] at hc
      rcases List.mem_cons.1 hc with h1 | h1
      · exact Or.inr h1
      · exact Or.inl (renderNat_all_digits _ c h1)
    · rw [renderInt, if_neg h] at hc
      exact Or.inl (renderNat_all_digits _ c hc)
  rcases hd with h1 | h1
  · simp only [isDigitCh, Bool.and_eq_true, decide_eq_true_eq] at h1
    simp only [isSpaceCh]
    have hn : c.toNat ≠ 32 ∧ c.toNat ≠ 9 ∧ c.toNat ≠ 10 ∧ c.toNat ≠ 13 ∧
        c.toNat ≠ 11 ∧ c.toNat ≠ 12 := by omega
    simp only [Bool.or_eq_false_iff]
    refine ⟨⟨⟨⟨⟨?_, ?_⟩, ?_⟩, ?_⟩, ?_⟩, ?_⟩ <;>
      · rw [beq_eq_false_iff_ne]
        intro he
        subst he
        simp_all
  · subst h1; decide

theorem dropWhile_of_head_false {p : Char → Bool} :
    ∀ (s : List Char), s ≠ [] → p s.headI = false → s.dropWhile p = s := by
  intro s hs hp
  cases s with
  | nil => exact absurd rfl hs
  | cons c t =>
    simp only [List.headI] at hp
    simp [List.dropWhile_cons, hp]

theorem pystrip_of_nonspace (s : List Char) (hne : s ≠ [])
    (h : ∀ c ∈ s, isSpaceCh c = false) : pystrip (s ++ ['\n']) = s := by
  have hhead : isSpaceCh (s ++ ['\n']).headI = false := by
    cases s with
    | nil => exact absurd rfl hne
    | cons c t =>
      simp only [List.cons_append, List.headI]
      exact h c (List.mem_cons_self c t)
  rw [pystrip, dropWhile_of_head_false (s ++ ['\n']) (by simp) hhead]
  rw [List.reverse_append]
  simp only [List.reverse_cons, List.reverse_nil, List.nil_append,
             List.singleton_append]
  rw [List.dropWhile_cons]
  have : isSpaceCh '\n' = true := by decide
  rw [this]
  simp only [if_true]
  rw [dropWhile_of_head_false s.reverse (by simpa using hne) ?hh]
  · exact List.reverse_reverse s
  case hh =>
    cases hr : s.reverse with
    | nil => simp at hr; exact absurd hr hne
    | cons c t =>
      simp only [List.headI]
      apply h
      have : c ∈ s.reverse := by rw [hr]; exact List.mem_cons_self c t
      simpa using this

/-- Python `int(b"%d\n" % i)` recovers `i`. -/
theorem pyIntParse_renderInt (i : Int) :
    pyIntParse (renderInt i ++ ['\n']) = some i := by
  have hne : renderInt i ≠ [] := by
    by_cases h : i < 0
    · rw [renderInt, if_pos h]; simp
    · rw [renderInt, if_neg h]; exact renderNat_ne_nil _
  rw [pyIntParse, pystrip_of_nonspace _ hne (renderInt_nonspace i),
      strictParseInt_renderInt]

theorem readline_append (s t : List Char) (h : ∀ c ∈ s, c ≠ '\n') :
    readline (s ++ '\n' :: t) = (s ++ ['\n'], t) := by
  induction s with
  | nil => simp [readline]
  | cons c u ih =>
    have hc : c ≠ '\n' := h c (List.mem_cons_self c u)
    simp only [List.cons_append, readline, if_neg hc, List.append_eq]
    rw [ih (fun x hx => h x (List.mem_cons_of_mem c hx))]

theorem readline_eof (s : List Char) (h : ∀ c ∈ s, c ≠ '\n') :
    readline s = (s, []) := by
  induction s with
  | nil => rfl
  | cons c u ih =>
    have hc : c ≠ '\n' := h c (List.mem_cons_self c u)
    simp only [readline, if_neg hc]
    rw [ih (fun x hx => h x (List.mem_cons_of_mem c hx))]

theorem renderInt_ne_newline (i : Int) : ∀ c ∈ renderInt i, c ≠ '\n' := by
  intro c hc he
  have := renderInt_nonspace i c hc
  subst he
  simp [isSpaceCh] at this

theorem renderNat_ne_newline (n : Nat) : ∀ c ∈ renderNat n, c ≠ '\n' := by
  intro c hc he
  have : isDigitCh c = true := renderNat_all_digits n c hc
  subst he
  simp [isDigitCh] at this

theorem pyIntParse_renderNat (n : Nat) :
    pyIntParse (renderNat n ++ ['\n']) = some (n : Int) := by
  have h := pyIntParse_renderInt (n : Int)
  rw [renderInt, if_neg (by omega), Int.natAbs_ofNat] at h
  exact h

/-- C6: writing a byte string as a frame and reading one frame back
yields exactly that byte string and leaves the rest of the stream
untouched (in particular, a zero length consumes no payload bytes). -/
theorem readframed_writeframed (b rest : List Char) :
    readframed (writeframed b ++ rest) = .ok (b, rest) := by
  have hif : (if b = [] then ([] : List Char) else b) = b := by
    by_cases hb : b = []
    · rw [if_pos hb, hb]
    · rw [if_neg hb]
  have harr : writeframed b ++ rest = renderNat b.length ++ '\n' :: (b ++ rest) := by
    rw [writeframed, hif]
    simp
  rw [harr, readframed, getamount, readline_append _ _ (renderNat_ne_newline b.length)]
  dsimp only
  have hne1 : renderNat b.length ++ ['\n'] ≠ ['\n'] := by
    intro h
    have := congrArg List.length h
    simp at this
    exact renderNat_ne_nil _ this
  rw [if_neg hne1, pyIntParse_renderNat]
  dsimp only
  by_cases hb : b = []
  · subst hb
    simp
  · have hlen : (b.length : Int) ≠ 0 := by
      simp only [ne_eq, Int.natCast_eq_zero]
      intro h
      exact hb (List.length_eq_zero.1 h)
    rw [if_neg hlen, Int.toNat_natCast, List.take_left, List.drop_left]

theorem spanP_append (p : Char → Bool) (x : Char) (t : List Char)
    (hx : p x = false) :
    ∀ s, (∀ c ∈ s, p c = true) → spanP p (s ++ x :: t) = (s, x :: t) := by
  intro s hs
  induction s with
  | nil => simp [spanP, hx]
  | cons c u ih =>
    have hc : p c = true := hs c (List.mem_cons_self c u)
    simp only [List.cons_append, spanP, hc, if_pos, List.append_eq]
    rw [ih (fun y hy => hs y (List.mem_cons_of_mem c hy))]

theorem wOne_pos (v : StateValue) : 1 ≤ wOne v := by
  cases v <;> simp [wOne]

theorem wSeq_pos (vs : List StateValue) : 1 ≤ wSeq vs := by
  cases vs with
  | nil => simp [wSeq]
  | cons v t => simp [wSeq]

theorem wPairs_pos (ps : List (StateValue × StateValue)) : 1 ≤ wPairs ps := by
  cases ps with
  | nil => simp [wPairs]
  | cons p t =>
    match p with
    | (k, v) => simp [wPairs]

theorem renderInt_ne_e (i : Int) : ∀ c ∈ renderInt i, (!(c == 'e')) = true := by
  intro c hc
  have hd : isDigitCh c = true ∨ c = '-' := by
    by_cases h : i < 0
    · rw [renderInt, if_pos h] at hc
      rcases List.mem_cons.1 hc with h1 | h1
      · exact Or.inr h1
      · exact Or.inl (renderNat_all_digits _ c h1)
    · rw [renderInt, if_neg h] at hc
      exact Or.inl (renderNat_all_digits _ c hc)
  rcases hd with h1 | h1
  · simp only [isDigitCh, Bool.and_eq_true, decide_eq_true_eq] at h1
    simp only [Bool.not_eq_eq_eq_not, Bool.not_true, beq_eq_false_iff_ne]
    intro he
    subst he
    simp at h1
  · subst h1; decide

theorem intSpan_spec (i : Int) (rest : List Char) :
    intSpan (renderInt i ++ 'e' :: rest) = some (i, rest) := by
  rw [intSpan,
      spanP_append (fun c => !(c == 'e')) 'e' rest (by decide) _ (renderInt_ne_e i)]
  rw [strictParseInt_renderInt]

theorem natSpan_spec (n : Nat) (t : List Char) :
    natSpan (renderNat n ++ ':' :: t) = some (n, t) := by
  rw [natSpan,
      spanP_append isDigitCh ':' t (by decide) _ (renderNat_all_digits n)]
  rcases hs : renderNat n with _ | ⟨c, cs⟩
  · exact absurd hs (renderNat_ne_nil n)
  · dsimp only
    rw [if_pos rfl, ← hs, parseDigitsBE_renderNat]

theorem streamencode_cons (v : StateValue) :
    ∃ c cs, streamencode v = c :: cs ∧ c ≠ 'e' := by
  cases v with
  | int i => exact ⟨'i', renderInt i ++ ['e'], by simp [streamencode], by decide⟩
  | bytes s =>
    exact ⟨'s', renderNat s.length ++ ':' :: s, by simp [streamencode], by decide⟩
  | list xs => exact ⟨'l', encodeSeq xs ++ ['e'], by simp [streamencode], by decide⟩
  | map ps => exact ⟨'d', encodePairs ps ++ ['e'], by simp [streamencode], by decide⟩

theorem decode_roundtrip : ∀ fuel : Nat,
    (∀ (v : StateValue) (rest : List Char), wOne v ≤ fuel →
      decodeOne fuel (streamencode v ++ rest) = some (v, rest)) ∧
    (∀ (vs : List StateValue) (rest : List Char), wSeq vs ≤ fuel →
      decodeSeq fuel (encodeSeq vs ++ 'e' :: rest) = some (vs, rest)) ∧
    (∀ (ps : List (StateValue × StateValue)) (rest : List Char), wPairs ps ≤ fuel →
      decodePairs fuel (encodePairs ps ++ 'e' :: rest) = some (ps, rest)) := by
  intro fuel
  induction fuel with
  | zero =>
    refine ⟨fun v _ hw => ?_, fun vs _ hw => ?_, fun ps _ hw => ?_⟩
    · exact absurd hw (by have := wOne_pos v; omega)
    · exact absurd hw (by have := wSeq_pos vs; omega)
    · exact absurd hw (by have := wPairs_pos ps; omega)
  | succ fuel ih =>
    obtain ⟨ih1, ih2, ih3⟩ := ih
    refine ⟨?_, ?_, ?_⟩
    · intro v rest hw
      cases v with
      | int i =>
        have h1 : streamencode (.int i) ++ rest = 'i' :: (renderInt i ++ 'e' :: rest) := by
          simp [streamencode]
        rw [h1, decodeOne, if_pos rfl, intSpan_spec]
      | bytes s =>
        have h1 : streamencode (.bytes s) ++ rest =
            's' :: (renderNat s.length ++ ':' :: (s ++ rest)) := by
          simp [streamencode]
        rw [h1, decodeOne, if_neg (by decide), if_pos rfl, natSpan_spec]
        dsimp only
        rw [if_pos (by simp), List.take_left, List.drop_left]
      | list xs =>
        have h1 : streamencode (.list xs) ++ rest =
            'l' :: (encodeSeq xs ++ 'e' :: rest) := by
          simp [streamencode]
        have hw2 : wSeq xs ≤ fuel := by
          rw [wOne] at hw
          omega
        rw [h1, decodeOne, if_neg (by decide), if_neg (by decide), if_pos rfl,
            ih2 xs rest hw2]
      | map ps =>
        have h1 : streamencode (.map ps) ++ rest =
            'd' :: (encodePairs ps ++ 'e' :: rest) := by
          simp [streamencode]
        have hw2 : wPairs ps ≤ fuel := by
          rw [wOne] at hw
          omega
        rw [h1, decodeOne, if_neg (by decide), if_neg (by decide),
            if_neg (by decide), if_pos rfl, ih3 ps rest hw2]
    · intro vs rest hw
      cases vs with
      | nil =>
        have h1 : encodeSeq [] ++ 'e' :: rest = 'e' :: rest := by simp [encodeSeq]
        rw [h1, decodeSeq, if_pos rfl]
      | cons v vs =>
        obtain ⟨c, cs, hc, hne⟩ := streamencode_cons v
        have hw1 : wOne v ≤ fuel := by
          rw [wSeq] at hw
          omega
        have hw2 : wSeq vs ≤ fuel := by
          rw [wSeq] at hw
          have := wOne_pos v
          omega
        have h1 : encodeSeq (v :: vs) ++ 'e' :: rest =
            c :: (cs ++ (encodeSeq vs ++ 'e' :: rest)) := by
          rw [encodeSeq, hc]
          simp
        rw [h1, decodeSeq, if_neg hne]
        have h2 : c :: (cs ++ (encodeSeq vs ++ 'e' :: rest)) =
            streamencode v ++ (encodeSeq vs ++ 'e' :: rest) := by
          rw [hc]
          simp
        rw [h2, ih1 v _ hw1]
        dsimp only
        rw [ih2 vs rest hw2]
    · intro ps rest hw
      cases ps with
      | nil =>
        have h1 : encodePairs [] ++ 'e' :: rest = 'e' :: rest := by simp [encodePairs]
        rw [h1, decodePairs, if_pos rfl]
      | cons p ps =>
        match p with
        | (k, v) =>
          obtain ⟨c, cs, hc, hne⟩ := streamencode_cons k
          have hw1 : wOne k ≤ fuel := by
            rw [wPairs] at hw
            omega
          have hw2 : wOne v ≤ fuel := by
            rw [wPairs] at hw
            have := wOne_pos k
            omega
          have hw3 : wPairs ps ≤ fuel := by
            rw [wPairs] at hw
            have := wOne_pos k
            have := wOne_pos v
            omega
          have h1 : encodePairs ((k, v) :: ps) ++ 'e' :: rest =
              c :: (cs ++ (streamencode v ++ (encodePairs ps ++ 'e' :: rest))) := by
            rw [encodePairs, hc]
            simp
          rw [h1, decodePairs, if_neg hne]
          have h2 : c :: (cs ++ (streamencode v ++ (encodePairs ps ++ 'e' :: rest))) =
              streamencode k ++ (streamencode v ++ (encodePairs ps ++ 'e' :: rest)) := by
            rw [hc]
            simp
          rw [h2, ih1 k _ hw1]
          dsimp only
          rw [ih1 v _ hw2]
          dsimp only
          rw [ih3 ps rest hw3]

theorem w_le_len : ∀ n : Nat,
    (∀ v : StateValue, wOne v ≤ n → wOne v ≤ (streamencode v).length) ∧
    (∀ vs : List StateValue, wSeq vs ≤ n → wSeq vs ≤ (encodeSeq vs).length + 1) ∧
    (∀ ps : List (StateValue × StateValue), wPairs ps ≤ n →
      wPairs ps ≤ (encodePairs ps).length + 1) := by
  intro n
  induction n with
  | zero =>
    refine ⟨fun v hw => ?_, fun vs hw => ?_, fun ps hw => ?_⟩
    · exact absurd hw (by have := wOne_pos v; omega)
    · exact absurd hw (by have := wSeq_pos vs; omega)
    · exact absurd hw (by have := wPairs_pos ps; omega)
  | succ n ih =>
    obtain ⟨ih1, ih2, ih3⟩ := ih
    refine ⟨?_, ?_, ?_⟩
    · intro v hw
      cases v with
      | int i => simp [streamencode, wOne]
      | bytes s => simp [streamencode, wOne]
      | list xs =>
        have h2 : wSeq xs ≤ n := by rw [wOne] at hw; omega
        have := ih2 xs h2
        rw [wOne]
        simp only [streamencode, List.length_cons, List.length_append,
                   List.length_singleton]
        omega
      | map ps =>
        have h2 : wPairs ps ≤ n := by rw [wOne] at hw; omega
        have := ih3 ps h2
        rw [wOne]
        simp only [streamencode, List.length_cons, List.length_append,
                   List.length_singleton]
        omega
    · intro vs hw
      cases vs with
      | nil => simp [encodeSeq, wSeq]
      | cons v t =>
        have h1 : wOne v ≤ n := by
          rw [wSeq] at hw
          have := wSeq_pos t
          omega
        have h2 : wSeq t ≤ n := by
          rw [wSeq] at hw
          have := wOne_pos v
          omega
        have := ih1 v h1
        have := ih2 t h2
        have hpos : 1 ≤ (streamencode v).length := by
          obtain ⟨c, cs, hc, _⟩ := streamencode_cons v
          rw [hc]
          simp
        rw [wSeq]
        simp only [encodeSeq, List.length_append]
        omega
    · intro ps hw
      cases ps with
      | nil => simp [encodePairs, wPairs]
      | cons p t =>
        match p with
        | (k, v) =>
          have h1 : wOne k ≤ n := by
            rw [wPairs] at hw
            have := wOne_pos v
            have := wPairs_pos t
            omega
          have h2 : wOne v ≤ n := by
            rw [wPairs] at hw
            have := wOne_pos k
            have := wPairs_pos t
            omega
          have h3 : wPairs t ≤ n := by
            rw [wPairs] at hw
            have := wOne_pos k
            have := wOne_pos v
            omega
          have := ih1 k h1
          have := ih1 v h2
          have := ih3 t h3
          have hpos : 1 ≤ (streamencode k).length := by
            obtain ⟨c, cs, hc, _⟩ := streamencode_cons k
            rw [hc]
            simp
          rw [wPairs]
          simp only [encodePairs, List.length_append]
          omega

theorem wOne_le_length (v : StateValue) : wOne v ≤ (streamencode v).length :=
  (w_le_len (wOne v)).1 v le_rfl

theorem wAll_le_length : ∀ vs : List StateValue, wAll vs ≤ (encodeSeq vs).length := by
  intro vs
  induction vs with
  | nil => simp [wAll, encodeSeq]
  | cons v t ih =>
    have := wOne_le_length v
    have hpos : 1 ≤ (streamencode v).length := by
      obtain ⟨c, cs, hc, _⟩ := streamencode_cons v
      rw [hc]
      simp
    rw [wAll]
    simp only [encodeSeq, List.length_append]
    omega

theorem decodeallAux_spec :
    ∀ (vs : List StateValue) (fuel : Nat), wAll vs ≤ fuel →
      decodeallAux fuel (encodeSeq vs) = some vs := by
  intro vs
  induction vs with
  | nil => intro fuel _; rw [encodeSeq]; cases fuel <;> rfl
  | cons v t ih =>
    intro fuel hw
    obtain ⟨c, cs, hc, _⟩ := streamencode_cons v
    match fuel with
    | 0 =>
      exact absurd hw (by have := wOne_pos v; have := wAll_le_length t; rw [wAll]; omega)
    | f + 1 =>
      have hw1 : wOne v ≤ f + 1 := by rw [wAll] at hw; omega
      have hw2 : wAll t ≤ f := by
        rw [wAll] at hw
        have := wOne_pos v
        omega
      have h1 : encodeSeq (v :: t) = c :: (cs ++ encodeSeq t) := by
        rw [encodeSeq, hc]
        simp
      rw [h1, decodeallAux]
      have h2 : c :: (cs ++ encodeSeq t) = streamencode v ++ encodeSeq t := by
        rw [hc]
        simp
      rw [h2, (decode_roundtrip (f + 1)).1 v _ hw1]
      dsimp only
      rw [ih f hw2]

theorem decodeall_encodeSeq (vs : List StateValue) :
    decodeall (encodeSeq vs) = some vs :=
  decodeallAux_spec vs _ (wAll_le_length vs)

/-- C8: saving a record with any integer version and any structured
payload and reading it back returns exactly the saved payload. -/
theorem cmdread_savecontent (version : Int) (data : StateValue) :
    cmdread (savecontent version data) = .ok data := by
  rw [savecontent, cmdread,
      readline_append _ _ (renderInt_ne_newline version)]
  dsimp only
  rw [pyIntParse_renderInt]
  have h : streamencode data = encodeSeq [data] := by simp [encodeSeq]
  rw [h, decodeall_encodeSeq]

/-- C9: `save` raises ProgrammingError (leaving the state file unchanged)
exactly when the version value is not an integer; an integer version
passes the check and the record is written. -/
theorem cmdsave_version_check (version : PyVersion) (data : StateValue)
    (file : Option (List Char)) :
    (version.isInt = false →
      cmdsave version data file = (some .programmingError, file)) ∧
    (∀ i, version = .pint i →
      cmdsave version data file = (none, some (savecontent i data))) := by
  constructor
  · intro h
    cases version with
    | pint i => simp [PyVersion.isInt] at h
    | pbytes s => rfl
    | pnone => rfl
  · intro i h
    subst h
    rfl

/-- Witness for C9 at concrete inputs. -/
theorem cmdsave_version_check_witness :
    cmdsave (.pbytes ['1']) (.int 5) (some ['x']) =
      (some .programmingError, some ['x']) ∧
    cmdsave (.pint 1) (.int 5) (some ['x']) =
      (none, some (savecontent 1 (.int 5))) :=
  ⟨(cmdsave_version_check (.pbytes ['1']) (.int 5) (some ['x'])).1 rfl,
   (cmdsave_version_check (.pint 1) (.int 5) (some ['x'])).2 1 rfl⟩

/-- C4 counterexample: a state file whose body decodes to two top-level
values is read back successfully (the first value is returned, the second
silently ignored), and a file with a valid version line but an empty body
fails with an IndexError — in neither case is CorruptedState raised, so
"fails with CorruptedState if decoding does not yield exactly one
top-level value" is false of the code. -/
theorem cmdread_not_corrupted_on_bad_count :
    decodeall ['i', '0', 'e', 'i', '1', 'e'] = some [.int 0, .int 1] ∧
    cmdread ['1', '\n', 'i', '0', 'e', 'i', '1', 'e'] = .ok (.int 0) ∧
    cmdread ['1', '\n'] = .error .indexError := ⟨rfl, rfl, rfl⟩

/-- C4 amended: `read` fails with CorruptedState exactly when the version
line is not a valid integer; otherwise it decodes the remainder, and
a malformed body propagates the decoder's own failure, an empty decode
result raises an IndexError, and the first of several decoded values is
returned with the rest ignored. -/
theorem cmdread_amended (content : List Char) :
    (cmdread content = .error .corruptedState ↔
      pyIntParse (readline content).1 = none) ∧
    (∀ v vs, decodeall (readline content).2 = some (v :: vs) →
      pyIntParse (readline content).1 ≠ none → cmdread content = .ok v) ∧
    (decodeall (readline content).2 = none →
      pyIntParse (readline content).1 ≠ none →
      cmdread content = .error .decodeError) ∧
    (decodeall (readline content).2 = some [] →
      pyIntParse (readline content).1 ≠ none →
      cmdread content = .error .indexError) := by
  refine ⟨?_, ?_, ?_, ?_⟩
  · constructor
    · intro h
      rw [cmdread] at h
      rcases hp : pyIntParse (readline content).1 with _ | i
      · rfl
      · rw [hp] at h
        rcases hd : decodeall (readline content).2 with _ | ⟨_ | ⟨v, vs⟩⟩ <;>
          rw [hd] at h <;> simp_all
    · intro h
      rw [cmdread, h]
  · intro v vs hd hp
    rcases hp2 : pyIntParse (readline content).1 with _ | i
    · exact absurd hp2 hp
    · rw [cmdread, hp2, hd]
  · intro hd hp
    rcases hp2 : pyIntParse (readline content).1 with _ | i
    · exact absurd hp2 hp
    · rw [cmdread, hp2, hd]
  · intro hd hp
    rcases hp2 : pyIntParse (readline content).1 with _ | i
    · exact absurd hp2 hp
    · rw [cmdread, hp2, hd]

/-- Witness for C4 amended at concrete inputs. -/
theorem cmdread_amended_witness :
    cmdread ['x', '\n', 'i', '7', 'e'] = .error .corruptedState ∧
    cmdread ['2', '\n', 'i', '7', 'e', 'i', '9', 'e'] = .ok (.int 7) :=
  ⟨(cmdread_amended ['x', '\n', 'i', '7', 'e']).1.2 rfl,
   (cmdread_amended ['2', '\n', 'i', '7', 'e', 'i', '9', 'e']).2.1 (.int 7)
     [.int 9] rfl (by decide)⟩

theorem foldl_addunfinished (regs : List StateCheck) :
    ∀ acc, regs.foldl addunfinished acc =
      (regs.filter fun s => !(s.opname == "merge")).reverse ++ acc ++
        regs.filter (fun s => s.opname == "merge") := by
  induction regs with
  | nil => intro acc; simp
  | cons s t ih =>
    intro acc
    by_cases h : s.opname = "merge"
    · simp only [List.foldl_cons, addunfinished, if_pos h, ih,
                 List.filter_cons, h]
      simp
    · simp only [List.foldl_cons, addunfinished, if_neg h, ih,
                 List.filter_cons]
      have hb : (s.opname == "merge") = false := by
        simp [h]
      rw [hb]
      simp

theorem buildRegistry_eq (regs : List StateCheck) :
    buildRegistry regs =
      (regs.filter fun s => !(s.opname == "merge")).reverse ++
        regs.filter (fun s => s.opname == "merge") := by
  rw [buildRegistry, foldl_addunfinished]
  simp

theorem getrepostateAux_eq_find (l : List StateCheck) (repo : Repo) :
    getrepostateAux l repo =
      (l.find? fun s =>
        !(repo.skipstates.contains s.opname) && s.isunfinished repo).map
        (fun s => (s.opname, s.statusmsg)) := by
  induction l with
  | nil => rfl
  | cons s t ih =>
    by_cases hskip : repo.skipstates.contains s.opname
    · rw [getrepostateAux, if_pos hskip, List.find?_cons]
      have : (!(repo.skipstates.contains s.opname) && s.isunfinished repo) = false := by
        rw [hskip]
        rfl
      rw [this, ih]
    · by_cases hun : s.isunfinished repo
      · rw [getrepostateAux, if_neg hskip, if_pos hun, List.find?_cons]
        have hb : repo.skipstates.contains s.opname = false := by
          simpa using hskip
        have : (!(repo.skipstates.contains s.opname) && s.isunfinished repo) = true := by
          rw [hb, hun]
          rfl
        rw [this]
        rfl
      · rw [getrepostateAux, if_neg hskip, if_neg hun, List.find?_cons]
        have hb : repo.skipstates.contains s.opname = false := by
          simpa using hskip
        have hu : s.isunfinished repo = false := by
          simpa using hun
        have : (!(repo.skipstates.contains s.opname) && s.isunfinished repo) = false := by
          rw [hb, hu]
          rfl
        rw [this, ih]

theorem find?_append_of_some {p : StateCheck → Bool} {a : List StateCheck}
    (b : List StateCheck) {s : StateCheck} (h : a.find? p = some s) :
    (a ++ b).find? p = some s := by
  induction a with
  | nil => simp at h
  | cons x t ih =>
    rw [List.find?_cons] at h
    rcases hx : p x with _ | _
    · rw [hx] at h
      rw [List.cons_append, List.find?_cons, hx]
      exact ih h
    · rw [hx] at h
      rw [List.cons_append, List.find?_cons, hx]
      exact h

theorem find?_congr_mem {p q : StateCheck → Bool} :
    ∀ l : List StateCheck, (∀ x ∈ l, p x = q x) → l.find? p = l.find? q := by
  intro l h
  induction l with
  | nil => rfl
  | cons x t ih =>
    rw [List.find?_cons, List.find?_cons, h x (List.mem_cons_self x t),
        ih (fun y hy => h y (List.mem_cons_of_mem x hy))]

/-- C5: non-merge registrations are prepended and `merge` appended, so
the registry is the reversed chronological list of non-merge descriptors
followed by the merge ones; detection (in registry order, skipping the
configured skip set) therefore returns the most recently registered
non-merge descriptor that is not skipped and whose slot file exists, and
returns none when no registered operation is unfinished. -/
theorem registry_precedence (regs : List StateCheck) (repo : Repo) :
    buildRegistry regs =
      (regs.filter fun s => !(s.opname == "merge")).reverse ++
        regs.filter (fun s => s.opname == "merge") ∧
    (∀ s, latestNonmergePending regs repo = some s →
      getrepostate repo regs = some (s.opname, s.statusmsg)) ∧
    ((∀ s ∈ regs, s.isunfinished repo = false) →
      getrepostate repo regs = none) := by
  refine ⟨buildRegistry_eq regs, ?_, ?_⟩
  · intro s hs
    rw [getrepostate, getrepostateAux_eq_find, buildRegistry_eq]
    have hcongr :
        ((regs.filter fun s => !(s.opname == "merge")).reverse.find? fun x =>
          !(repo.skipstates.contains x.opname) && x.isunfinished repo) = some s := by
      rw [find?_congr_mem _ ?hpq]
      · exact hs
      case hpq =>
        intro x hx
        rw [List.mem_reverse, List.mem_filter] at hx
        have hm : x.opname ≠ "merge" := by
          have := hx.2
          simp at this
          exact this
        rw [StateCheck.isunfinished, if_neg hm]
    rw [find?_append_of_some _ hcongr]
    rfl
  · intro h
    rw [getrepostate, getrepostateAux_eq_find]
    have : (buildRegistry regs).find?
        (fun x => !(repo.skipstates.contains x.opname) && x.isunfinished repo) = none := by
      rw [List.find?_eq_none]
      intro x hx
      have hmem : x ∈ regs := by
        rw [buildRegistry_eq] at hx
        rcases List.mem_append.1 hx with h1 | h1
        · rw [List.mem_reverse] at h1
          exact (List.mem_filter.1 h1).1
        · exact (List.mem_filter.1 h1).1
      rw [h x hmem]
      simp
    rw [this]
    rfl

/-- Witness for C5: with both slot files present the later registration
wins; with no slot file present and one working-copy parent nothing is
reported. -/
theorem registry_precedence_witness :
    getrepostate ⟨1, ["graftstate", "rebasestate"], []⟩ [graftDesc, rebaseDesc] =
      some (rebaseDesc.opname, rebaseDesc.statusmsg) ∧
    getrepostate ⟨1, [], []⟩ [graftDesc, rebaseDesc] = none :=
  ⟨(registry_precedence [graftDesc, rebaseDesc]
      ⟨1, ["graftstate", "rebasestate"], []⟩).2.1 rebaseDesc (by decide),
   (registry_precedence [graftDesc, rebaseDesc] ⟨1, [], []⟩).2.2 (by decide)⟩

theorem lineOk_ne_nil {l : List Char} (h : lineOk l = true) : l ≠ [] := by
  intro he
  subst he
  simp [lineOk] at h

theorem readline_of_lineOk {l : List Char} (rest : List Char)
    (h : lineOk l = true) : readline (l ++ rest) = (l, rest) := by
  rw [lineOk, Bool.and_eq_true] at h
  obtain ⟨h1, h2⟩ := h
  rw [beq_iff_eq] at h1
  have hne : l ≠ [] := by
    intro he
    subst he
    simp at h1
  have hlast : l.getLast hne = '\n' := by
    rw [List.getLast?_eq_getLast l hne] at h1
    exact Option.some.inj h1
  have hsplit : l.dropLast ++ ['\n'] = l := by
    rw [← hlast]
    exact List.dropLast_append_getLast hne
  have hnl : ∀ c ∈ l.dropLast, c ≠ '\n' := by
    intro c hc
    have := List.all_eq_true.1 h2 c hc
    simpa using this
  calc readline (l ++ rest)
      = readline (l.dropLast ++ '\n' :: rest) := by
        rw [← hsplit]
        simp
    _ = (l.dropLast ++ ['\n'], rest) := readline_append _ _ hnl
    _ = (l, rest) := by rw [hsplit]

theorem matchUpgraded_nil (token : List Char) : matchUpgraded token [] = none := by
  rw [matchUpgraded]
  have h : ("upgraded ".toList ++ token ++ [' ']) =
      'u' :: ("pgraded ".toList ++ token ++ [' ']) := rfl
  rw [h]
  rfl

theorem matchUpgraded_newline (token : List Char) :
    matchUpgraded token ['\n'] = none := by
  rw [matchUpgraded]
  have h : ("upgraded ".toList ++ token ++ [' ']) =
      'u' :: ("pgraded ".toList ++ token ++ [' ']) := rfl
  rw [h]
  rfl

theorem scanLoop_lastEmpty (token : List Char) (noise : Nat) (stdout : List Char)
    (lines : List (List Char)) (h : lines.getLast? = some []) :
    scanLoop token noise stdout lines = .noResponse := by
  cases noise with
  | zero => rfl
  | succ n => rw [scanLoop, if_pos h]

theorem scanLoop_fail (token : List Char) :
    ∀ (noise : Nat) (ls : List (List Char)) (lines : List (List Char)) (prev : List Char),
      (∀ l ∈ ls, lineOk l = true) →
      lines.getLast? = some prev →
      noTerm token prev ls = true →
      scanLoop token noise (linesJoin ls) lines = .noResponse := by
  intro noise
  induction noise with
  | zero => intro ls lines prev _ _ _; rfl
  | succ n ih =>
    intro ls lines prev hok hlast hnt
    by_cases hprev : prev = []
    · subst hprev
      exact scanLoop_lastEmpty token _ _ _ hlast
    · rw [scanLoop, if_neg (by rw [hlast]; simp [hprev])]
      cases ls with
      | nil =>
        rw [linesJoin, show readline [] = ([], []) from rfl]
        dsimp only
        rw [matchUpgraded_nil]
        rw [if_neg (by rintro ⟨-, h2⟩; exact absurd h2 (by decide))]
        exact scanLoop_lastEmpty token n [] (lines ++ [[]]) (by simp)
      | cons l ls2 =>
        have hl : lineOk l = true := hok l (List.mem_cons_self l ls2)
        rw [linesJoin, readline_of_lineOk _ hl]
        dsimp only
        rw [noTerm, Bool.and_eq_true, Bool.and_eq_true] at hnt
        obtain ⟨⟨hm, hpair⟩, hrest⟩ := hnt
        rw [Option.isNone_iff_eq_none] at hm
        rw [hm]
        have hcond : ¬(lines.getLast? = some ['1', '\n'] ∧ l = ['\n']) := by
          rintro ⟨h1, h2⟩
          rw [hlast] at h1
          have hp : prev = ['1', '\n'] := Option.some.inj h1
          rw [hp, h2] at hpair
          simp at hpair
        rw [if_neg hcond]
        exact ih ls2 (lines ++ [l]) l
          (fun x hx => hok x (List.mem_cons_of_mem l hx)) (by simp) hrest

theorem scanLoop_upgraded (token : List Char) :
    ∀ (ls : List (List Char)) (noise : Nat) (lines : List (List Char)) (prev : List Char)
      (upline proto rest : List Char),
      (∀ l ∈ ls, lineOk l = true) →
      lines.getLast? = some prev →
      prev ≠ [] →
      noTerm token prev ls = true →
      ls.length < noise →
      lineOk upline = true →
      matchUpgraded token upline = some proto →
      scanLoop token noise (linesJoin ls ++ upline ++ rest) lines =
        .upgraded proto (lines ++ ls) rest := by
  intro ls
  induction ls with
  | nil =>
    intro noise lines prev upline proto rest _ hlast hprev _ hlen hup hm
    match noise, hlen with
    | n + 1, _ =>
      rw [scanLoop, if_neg (by rw [hlast]; simp [hprev])]
      rw [linesJoin, List.nil_append, readline_of_lineOk _ hup]
      dsimp only
      rw [hm]
      simp
  | cons l ls2 ih =>
    intro noise lines prev upline proto rest hok hlast hprev hnt hlen hup hm
    match noise, hlen with
    | n + 1, hlen2 =>
      rw [scanLoop, if_neg (by rw [hlast]; simp [hprev])]
      have hl : lineOk l = true := hok l (List.mem_cons_self l ls2)
      rw [linesJoin, List.append_assoc, List.append_assoc,
          readline_of_lineOk _ hl]
      dsimp only
      rw [noTerm, Bool.and_eq_true, Bool.and_eq_true] at hnt
      obtain ⟨⟨hmn, hpair⟩, hrest⟩ := hnt
      rw [Option.isNone_iff_eq_none] at hmn
      rw [hmn]
      have hcond : ¬(lines.getLast? = some ['1', '\n'] ∧ l = ['\n']) := by
        rintro ⟨h1, h2⟩
        rw [hlast] at h1
        have hp : prev = ['1', '\n'] := Option.some.inj h1
        rw [hp, h2] at hpair
        simp at hpair
      rw [if_neg hcond]
      dsimp only
      have := ih n (lines ++ [l]) l upline proto rest
        (fun x hx => hok x (List.mem_cons_of_mem l hx)) (by simp)
        (lineOk_ne_nil hl) hrest (by simpa using Nat.lt_of_succ_lt_succ hlen2)
        hup hm
      simpa using this

theorem scanLoop_legacy (token : List Char) :
    ∀ (ls : List (List Char)) (noise : Nat) (lines : List (List Char)) (prev : List Char)
      (rest : List Char),
      (∀ l ∈ ls, lineOk l = true) →
      lines.getLast? = some prev →
      prev ≠ [] →
      noTerm token prev ls = true →
      ls.getLast? = some ['1', '\n'] →
      ls.length < noise →
      scanLoop token noise (linesJoin ls ++ '\n' :: rest) lines =
        .legacy (lines ++ ls) rest := by
  intro ls
  induction ls with
  | nil =>
    intro noise lines prev rest _ _ _ _ hlastls _
    simp at hlastls
  | cons l ls2 ih =>
    intro noise lines prev rest hok hlast hprev hnt hlastls hlen
    match noise, hlen with
    | n + 1, hlen2 =>
      rw [scanLoop, if_neg (by rw [hlast]; simp [hprev])]
      have hl : lineOk l = true := hok l (List.mem_cons_self l ls2)
      rw [linesJoin, List.append_assoc, readline_of_lineOk _ hl]
      dsimp only
      rw [noTerm, Bool.and_eq_true, Bool.and_eq_true] at hnt
      obtain ⟨⟨hmn, hpair⟩, hrest⟩ := hnt
      rw [Option.isNone_iff_eq_none] at hmn
      rw [hmn]
      have hcond : ¬(lines.getLast? = some ['1', '\n'] ∧ l = ['\n']) := by
        rintro ⟨h1, h2⟩
        rw [hlast] at h1
        have hp : prev = ['1', '\n'] := Option.some.inj h1
        rw [hp, h2] at hpair
        simp at hpair
      rw [if_neg hcond]
      dsimp only
      cases ls2 with
      | nil =>
        have hl1 : l = ['1', '\n'] := by simpa using hlastls
        match n, Nat.lt_of_succ_lt_succ hlen2 with
        | m + 1, _ =>
          rw [linesJoin, List.nil_append, scanLoop,
              if_neg (by simp [lineOk_ne_nil hl]),
              show readline ('\n' :: rest) = (['\n'], rest) from by
                rw [readline]; simp]
          dsimp only
          rw [matchUpgraded_newline]
          rw [if_pos ⟨by simp [hl1], rfl⟩]
      | cons l2 ls3 =>
        have := ih n (lines ++ [l]) l rest
          (fun x hx => hok x (List.mem_cons_of_mem l hx)) (by simp)
          (lineOk_ne_nil hl) hrest (by simpa using hlastls)
          (by simpa using Nat.lt_of_succ_lt_succ hlen2)
        simpa using this

/-- C2: during handshake response scanning, a line matching
`upgraded <token> <version>` with the request token stops the scan
adopting that version with the legacy lines left unprocessed; a blank
line right after an exact `1\n` line stops the scan normally (legacy
version); a stream of mere noise — whether it exhausts the bounded
noise budget or simply ends — fails with the no-suitable-response
error. -/
theorem handshake_scanning (token : List Char) :
    (∀ (ls : List (List Char)) (upline proto rest : List Char),
      (∀ l ∈ ls, lineOk l = true) →
      noTerm token "dummy".toList ls = true →
      ls.length < 500 →
      lineOk upline = true →
      matchUpgraded token upline = some proto →
      handshakeScan token (linesJoin ls ++ upline ++ rest) =
        .upgraded proto (initLines ++ ls) rest) ∧
    (∀ (ls : List (List Char)) (rest : List Char),
      (∀ l ∈ ls, lineOk l = true) →
      noTerm token "dummy".toList ls = true →
      ls.getLast? = some ['1', '\n'] →
      ls.length < 500 →
      handshakeScan token (linesJoin ls ++ '\n' :: rest) =
        .legacy (initLines ++ ls) rest) ∧
    (∀ ls : List (List Char),
      (∀ l ∈ ls, lineOk l = true) →
      noTerm token "dummy".toList ls = true →
      handshakeScan token (linesJoin ls) = .noResponse) := by
  refine ⟨?_, ?_, ?_⟩
  · intro ls upline proto rest hok hnt hlen hup hm
    exact scanLoop_upgraded token ls 500 initLines "dummy".toList upline proto
      rest hok rfl (by decide) hnt hlen hup hm
  · intro ls rest hok hnt hlastls hlen
    exact scanLoop_legacy token ls 500 initLines "dummy".toList rest hok rfl
      (by decide) hnt hlastls hlen
  · intro ls hok hnt
    exact scanLoop_fail token 500 ls initLines "dummy".toList hok rfl hnt

/-- Witness for C2 on concrete streams: an upgrade reply after one
banner line, a legacy `1\n\n` terminator after one banner line, and a
bare-banner stream that fails. -/
theorem handshake_scanning_witness :
    handshakeScan "tok".toList
        (linesJoin ["hi\n".toList] ++ "upgraded tok v2\n".toList ++ "XY".toList) =
      .upgraded "v2".toList (initLines ++ ["hi\n".toList]) "XY".toList ∧
    handshakeScan "tok".toList
        (linesJoin ["hi\n".toList, "1\n".toList] ++ '\n' :: "AB".toList) =
      .legacy (initLines ++ ["hi\n".toList, "1\n".toList]) "AB".toList ∧
    handshakeScan "tok".toList (linesJoin ["banner\n".toList]) = .noResponse :=
  ⟨(handshake_scanning "tok".toList).1 ["hi\n".toList] "upgraded tok v2\n".toList
      "v2".toList "XY".toList (by decide) (by decide) (by decide) (by decide)
      (by decide),
   (handshake_scanning "tok".toList).2.1 ["hi\n".toList, "1\n".toList]
      "AB".toList (by decide) (by decide) (by decide) (by decide),
   (handshake_scanning "tok".toList).2.2 ["banner\n".toList] (by decide)
      (by decide)⟩

/-- C7: a legacy handshake obtains its capability set by scanning the
collected lines in reverse for the first `capabilities:` line, splitting
its remainder on the colon and then on whitespace, and fails with the
terminal no-suitable-response error when that set is empty; and whenever
`makepeer` ends in an error, all three streams have been closed before
it propagates. -/
theorem legacy_caps_and_failure_cleanup (token : List Char) :
    (∀ (ls : List (List Char)) (rest : List Char),
      (∀ l ∈ ls, lineOk l = true) →
      noTerm token "dummy".toList ls = true →
      ls.getLast? = some ['1', '\n'] →
      ls.length < 500 →
      performHandshake token (linesJoin ls ++ '\n' :: rest) =
        (if capsFromLines (initLines ++ ls) = [] then .noResponse
         else .ok SSHV1 (capsFromLines (initLines ++ ls)) rest)) ∧
    (∀ (stdout : List Char) (p : PipeState),
      (makepeer token stdout p).1 = none →
      (makepeer token stdout p).2.oClosed = true ∧
      (makepeer token stdout p).2.iClosed = true ∧
      (makepeer token stdout p).2.eClosed = true) := by
  constructor
  · intro ls rest hok hnt hlastls hlen
    rw [performHandshake, handshakeScan,
        scanLoop_legacy token ls 500 initLines "dummy".toList rest hok rfl
          (by decide) hnt hlastls hlen]
    dsimp only
    unfold finishHandshake
    rw [if_pos rfl]
  · intro stdout p h
    rcases hperf : performHandshake token stdout with ⟨proto, caps, r⟩ | _
    · rw [makepeer, hperf] at h ⊢
      dsimp only at h ⊢
      by_cases h1 : proto = SSHV1
      · rw [if_pos h1] at h
        simp at h
      · rw [if_neg h1] at h ⊢
        by_cases h2 : proto = SSHV2
        · rw [if_pos h2] at h
          simp at h
        · rw [if_neg h2]
          exact ⟨rfl, rfl, rfl⟩
    · rw [makepeer, hperf]
      exact ⟨rfl, rfl, rfl⟩

/-- Witness for C7: a legacy stream advertising `foo bar`, and a failing
empty stream after which all pipes are closed. -/
theorem legacy_caps_and_failure_cleanup_witness :
    performHandshake "tok".toList
        (linesJoin ["capabilities: foo bar\n".toList, "1\n".toList] ++
          '\n' :: "Z".toList) =
      (if capsFromLines (initLines ++
            ["capabilities: foo bar\n".toList, "1\n".toList]) = [] then
        .noResponse
       else
        .ok SSHV1 (capsFromLines (initLines ++
            ["capabilities: foo bar\n".toList, "1\n".toList])) "Z".toList) ∧
    (makepeer "tok".toList [] ⟨false, false, false, "e\n".toList, []⟩).2.oClosed =
      true :=
  ⟨(legacy_caps_and_failure_cleanup "tok".toList).1
      ["capabilities: foo bar\n".toList, "1\n".toList] "Z".toList
      (by decide) (by decide) (by decide) (by decide),
   ((legacy_caps_and_failure_cleanup "tok".toList).2 []
      ⟨false, false, false, "e\n".toList, []⟩ rfl).1⟩

/-- C3 counterexample: with every pipe open and stderr output pending,
`close()` — whose body is `pass` — leaves the pipes open and forwards
nothing, refuting that close() closes the underlying duplex pipes. -/
theorem peerclose_noop_counterexample :
    peerclose ⟨false, false, false, "msg\n".toList, []⟩ =
      ⟨false, false, false, "msg\n".toList, []⟩ ∧
    (peerclose ⟨false, false, false, "msg\n".toList, []⟩).oClosed = false ∧
    (peerclose ⟨false, false, false, "msg\n".toList, []⟩).forwarded = [] :=
  ⟨rfl, rfl, rfl⟩

/-- C3 amended: `close()` is a no-op (hence trivially idempotent and
safe to call repeatedly, but it closes nothing); the closing and
draining are done by `_cleanup` — installed as `__del__`, so it runs on
teardown whether or not close() was called — which closes both duplex
pipes and the stderr pipe, forwards all pending stderr output before
the final close, and is itself idempotent. -/
theorem close_and_cleanup (s : PipeState) :
    peerclose s = s ∧
    (peercleanup s).oClosed = true ∧
    (peercleanup s).iClosed = true ∧
    (peercleanup s).eClosed = true ∧
    (s.eClosed = false →
      (peercleanup s).forwarded = s.forwarded ++ pipeLines s.ePending) ∧
    peercleanup (peercleanup s) = peercleanup s := by
  refine ⟨rfl, rfl, rfl, rfl, ?_, ?_⟩
  · intro h
    unfold peercleanup cleanuppipes
    rw [h]
    rfl
  · unfold peercleanup cleanuppipes
    simp

/-- Witness for C3 amended at a concrete open pipe state. -/
theorem close_and_cleanup_witness :
    (peercleanup ⟨false, false, false, "ab\n".toList, []⟩).forwarded =
      [] ++ pipeLines "ab\n".toList :=
  (close_and_cleanup ⟨false, false, false, "ab\n".toList, []⟩).2.2.2.2.1 rfl

theorem forwardoutput_main (s : DoublePipe) : (forwardoutput s).main = s.main := rfl

theorem forwardoutput_idem (s : DoublePipe) :
    forwardoutput (forwardoutput s) = forwardoutput s := by
  rw [forwardoutput, forwardoutput]
  simp

/-- C10: a write of empty data, a read of size 0, and any
read/write/readline on a closed primary all forward the currently
available side-channel output to the diagnostic sink and return the
empty string, leaving the primary stream untouched (no operation is
logged against it). -/
theorem doublepipe_shortcircuit (s : DoublePipe) :
    (∀ n : Nat, n = 0 ∨ s.main.closed = true →
      dpread n s = ([], forwardoutput s)) ∧
    (∀ d : List Char, d = [] ∨ s.main.closed = true →
      dpwrite d s = ([], forwardoutput s)) ∧
    (s.main.closed = true → dpreadline s = ([], forwardoutput s)) ∧
    (forwardoutput s).main = s.main ∧
    (forwardoutput s).side = [] ∧
    (forwardoutput s).sink =
      s.sink ++ (if s.side = [] then [] else pysplitlines s.side) := by
  have hcall : ∀ arg, argFalsy arg = true ∨ s.main.closed = true →
      dpcall arg s = ([], forwardoutput s) := by
    intro arg h
    rw [dpcall, if_pos]
    rcases h with h | h
    · rw [h]
      rfl
    · rw [h]
      simp
  refine ⟨?_, ?_, ?_, rfl, rfl, rfl⟩
  · intro n h
    have hc : dpcall (.readSize n) s = ([], forwardoutput s) := by
      apply hcall
      rcases h with h | h
      · exact Or.inl (by rw [h]; rfl)
      · exact Or.inr h
    rw [dpread]
    by_cases hn : n = 0
    · rw [if_neg (by rintro ⟨h1, -⟩; exact h1 hn), hc]
    · rw [if_pos ⟨hn, by rw [hc]⟩, hc]
      exact congrArg _ (forwardoutput_idem s)
  · intro d h
    rw [dpwrite]
    apply hcall
    rcases h with h | h
    · exact Or.inl (by rw [h]; rfl)
    · exact Or.inr h
  · intro h
    rw [dpreadline]
    exact hcall _ (Or.inr h)

/-- Witness for C10: zero-size read, empty write, and a read on a closed
primary, each with pending side output. -/
theorem doublepipe_shortcircuit_witness :
    dpread 0 ⟨⟨"abc".toList, false, []⟩, "e1\n".toList, []⟩ =
      ([], forwardoutput ⟨⟨"abc".toList, false, []⟩, "e1\n".toList, []⟩) ∧
    dpwrite [] ⟨⟨"abc".toList, false, []⟩, "e1\n".toList, []⟩ =
      ([], forwardoutput ⟨⟨"abc".toList, false, []⟩, "e1\n".toList, []⟩) ∧
    dpread 3 ⟨⟨"abc".toList, true, []⟩, "e1\n".toList, []⟩ =
      ([], forwardoutput ⟨⟨"abc".toList, true, []⟩, "e1\n".toList, []⟩) ∧
    dpreadline ⟨⟨"abc".toList, true, []⟩, "e1\n".toList, []⟩ =
      ([], forwardoutput ⟨⟨"abc".toList, true, []⟩, "e1\n".toList, []⟩) :=
  ⟨(doublepipe_shortcircuit ⟨⟨"abc".toList, false, []⟩, "e1\n".toList, []⟩).1 0
      (Or.inl rfl),
   (doublepipe_shortcircuit ⟨⟨"abc".toList, false, []⟩, "e1\n".toList, []⟩).2.1 []
      (Or.inl rfl),
   (doublepipe_shortcircuit ⟨⟨"abc".toList, true, []⟩, "e1\n".toList, []⟩).1 3
      (Or.inr rfl),
   (doublepipe_shortcircuit ⟨⟨"abc".toList, true, []⟩, "e1\n".toList, []⟩).2.2.1
      rfl⟩

end Hg

